import Mathlib

/-!
Verification of the behavioral logic of a single-page portfolio site
(`src/app/page.tsx`): the scroll-driven active-section tracker
(`handleScroll`), the time-sampled progressive counter
(`AnimatedCounter`), and the featured/other project partition.

JavaScript numbers (scroll offsets, layout rectangles, the counter
accumulator) are modelled as rationals `ℚ`; `Math.floor` is `Int.floor`.
The counter's `setInterval` loop is modelled as an explicit step function
on a counter state, indexed by the number of elapsed 16 ms samples.
-/

/-- Layout rectangle of a page section, as read from the DOM:
`element.offsetTop` and `element.offsetHeight`. -/
structure SectionRect where
  offsetTop : ℚ
  offsetHeight : ℚ
deriving DecidableEq

/-- The known section ids, in the priority order the scroll handler
iterates them (source line 215). -/
def sections : List String := ["home", "about", "projects", "contact"]

/-- One scroll sample of `handleScroll` (source lines 214-230): the first
section (in `sections` order) whose element exists and whose range
`[offsetTop, offsetTop + offsetHeight)` contains `scrollY + 100`; `none`
when no section matches (the loop then never calls `setActiveSection`).
`getElementById` returns `none` for a missing element, mirroring
`document.getElementById` returning `null`. -/
def findActive (getElementById : String → Option SectionRect) (scrollY : ℚ) :
    Option String :=
  let scrollPosition := scrollY + 100
  sections.findSome? fun s =>
    match getElementById s with
    | some el =>
        if el.offsetTop ≤ scrollPosition ∧
            scrollPosition < el.offsetTop + el.offsetHeight then
          some s
        else
          none
    | none => none

/-- The active-section state after one scroll sample: the first match if
any, otherwise the previous active section (the loop body only ever
overwrites the state on a match). -/
def handleScroll (getElementById : String → Option SectionRect) (scrollY : ℚ)
    (active : String) : String :=
  (findActive getElementById scrollY).getD active

/-- Active-section state over a whole page session: fold the scroll
samples (each carrying the layout at that moment and the scroll offset)
from the initial `useState("home")` (source line 205). -/
def runScrolls (samples : List ((String → Option SectionRect) × ℚ)) : String :=
  samples.foldl (fun active sample => handleScroll sample.1 sample.2 active) "home"

/-- Spec-side predicate: the probe value lies in the section's layout
range `[top, top + height)`. -/
def specInRange (r : SectionRect) (probe : ℚ) : Prop :=
  r.offsetTop ≤ probe ∧ probe < r.offsetTop + r.offsetHeight

instance (r : SectionRect) (probe : ℚ) : Decidable (specInRange r probe) :=
  inferInstanceAs
    (Decidable (r.offsetTop ≤ probe ∧ probe < r.offsetTop + r.offsetHeight))

/-- Spec-side tracker, written from the specification's words: "The first
section whose layout range `[top, top+height)` contains `probe` becomes
the new active section", over a total layout (a rectangle for each
section). To be compared with `findActive`. -/
def specFirstMatch (layout : String → SectionRect) (scrollY : ℚ) : Option String :=
  sections.find? fun s => decide (specInRange (layout s) (scrollY + 100))

/-- A concrete page layout used to exercise the tracker. -/
def demoLayout (s : String) : Option SectionRect :=
  if s = "home" then some ⟨0, 600⟩
  else if s = "about" then some ⟨600, 500⟩
  else if s = "projects" then some ⟨1100, 700⟩
  else if s = "contact" then some ⟨1800, 400⟩
  else none

/-- State of one `AnimatedCounter` animation (source lines 73-105):
`start` is the accumulator (`let start = 0`, then `start += increment`
each sample), `count` the displayed React state (`useState(0)`), and
`running` whether the interval timer is still scheduled. -/
structure CounterState where
  start : ℚ
  count : ℚ
  running : Bool
deriving DecidableEq

/-- `const duration = 2000` (source line 82). -/
def duration : ℚ := 2000

/-- The `setInterval` period, 16 ms (source lines 83 and 93). -/
def intervalMs : ℚ := 16

/-- Per-sample increment `end / (duration / 16)` (source line 83);
`endVal` is the source's `end`, a Lean keyword. -/
def increment (endVal : ℚ) : ℚ := endVal / (duration / intervalMs)

/-- One timer callback (source lines 85-93): add the increment; if the
accumulator reached the target, display exactly `end` and clear the
interval, else display `Math.floor(start)`. After `clearInterval` the
state never changes again. -/
def tick (endVal : ℚ) (s : CounterState) : CounterState :=
  if s.running then
    let start := s.start + increment endVal
    if endVal ≤ start then
      { start := start, count := endVal, running := false }
    else
      { start := start, count := (⌊start⌋ : ℚ), running := true }
  else
    s

/-- Counter state after `k` timer samples, from the initial state
(accumulator 0, displayed value 0, timer scheduled). -/
def counterStates (endVal : ℚ) : ℕ → CounterState
  | 0 => { start := 0, count := 0, running := true }
  | k + 1 => tick endVal (counterStates endVal k)

/-- The displayed value after `k` samples. -/
def displayed (endVal : ℚ) (k : ℕ) : ℚ := (counterStates endVal k).count

/-- Spec-side predicate: some sample `j` with `1 ≤ j ≤ k` has already
reached or passed the target, the accumulator after `j` samples being
`j * increment` per the specification's accumulator description. -/
def hitBy (endVal : ℚ) (k : ℕ) : Prop :=
  ∃ j ∈ Finset.Icc 1 k, endVal ≤ (j : ℚ) * increment endVal

instance (endVal : ℚ) (k : ℕ) : Decidable (hitBy endVal k) :=
  inferInstanceAs
    (Decidable (∃ j ∈ Finset.Icc 1 k, endVal ≤ (j : ℚ) * increment endVal))

/-- Spec-side displayed value, written from the specification's words:
the accumulator starts at 0 and gains `increment` each sample; the
displayed value is the accumulator floored, except from the final sample
(the first whose accumulator reaches or exceeds the target) on, where it
is exactly the target. To be compared with `displayed`. -/
def specDisplay (endVal : ℚ) (k : ℕ) : ℚ :=
  if k = 0 then 0
  else if hitBy endVal k then endVal
  else (⌊(k : ℚ) * increment endVal⌋ : ℚ)

/-- A project record of the static portfolio data (source lines 45-54). -/
structure Project where
  id : ℤ
  title : String
  description : String
  image : String
  technologies : List String
  github : String
  demo : String
  featured : Bool
deriving DecidableEq

/-- `data.projects.filter((project) => project.featured)` (source line 253). -/
def featuredProjects (projects : List Project) : List Project :=
  projects.filter fun project => project.featured

/-- `data.projects.filter((project) => !project.featured)` (source line 254). -/
def otherProjects (projects : List Project) : List Project :=
  projects.filter fun project => !project.featured

/-- Modelled from the spec: the counter's visibility trigger comes from
framer-motion's `useInView(ref, { once: true })` (source line 76), whose
implementation is outside this repository; the spec describes it as "a
one-shot visibility observation" that latches the first time the
container becomes visible. Given the raw per-step visibility booleans so
far, the latched `isInView` value is true iff the container has ever been
visible. -/
def latchedInView (raw : List Bool) : Bool := raw.any id

/-- Modelled from the spec: the effect (source lines 78-97) re-runs when
its dependency `isInView` changes and starts the sampling timer when it
is true, so the animation (re)starts at step `k` exactly when the latched
value turns true at `k` having been false before. -/
def triggersAt (raw : List Bool) (k : ℕ) : Bool :=
  latchedInView (raw.take (k + 1)) && !(latchedInView (raw.take k))

/-! ### Helper lemmas: active-section tracker -/

/-- The body of the `handleScroll` loop, as passed to `findSome?`. -/
def scanSection (getElementById : String → Option SectionRect) (probe : ℚ)
    (s : String) : Option String :=
  match getElementById s with
  | some el =>
      if el.offsetTop ≤ probe ∧ probe < el.offsetTop + el.offsetHeight then
        some s
      else
        none
  | none => none

lemma findActive_eq_findSome (getElementById : String → Option SectionRect)
    (scrollY : ℚ) :
    findActive getElementById scrollY =
      sections.findSome? (scanSection getElementById (scrollY + 100)) := rfl

lemma scanSection_eq_some {getElementById : String → Option SectionRect}
    {probe : ℚ} {s t : String}
    (h : scanSection getElementById probe s = some t) : s = t := by
  unfold scanSection at h
  rcases hel : getElementById s with _ | el <;> rw [hel] at h
  · exact Option.noConfusion h
  · have h2 : (if el.offsetTop ≤ probe ∧ probe < el.offsetTop + el.offsetHeight
        then some s else none) = some t := h
    by_cases hc : el.offsetTop ≤ probe ∧ probe < el.offsetTop + el.offsetHeight
    · rw [if_pos hc] at h2
      exact Option.some.inj h2
    · rw [if_neg hc] at h2
      exact Option.noConfusion h2

lemma scanSection_total (layout : String → SectionRect) (probe : ℚ) (s : String) :
    scanSection (fun t => some (layout t)) probe s =
      if specInRange (layout s) probe then some s else none := rfl

lemma findSome_total_eq_find (layout : String → SectionRect) (probe : ℚ)
    (l : List String) :
    l.findSome? (scanSection (fun t => some (layout t)) probe) =
      l.find? fun s => decide (specInRange (layout s) probe) := by
  induction l with
  | nil => rfl
  | cons a l ih =>
    rw [List.findSome?_cons, List.find?_cons, scanSection_total]
    by_cases h : specInRange (layout a) probe
    · rw [if_pos h, decide_eq_true h]
    · rw [if_neg h, decide_eq_false h]
      exact ih

/-- C1: for every total layout (a rectangle for each of the four known
sections) and every scroll offset, one scroll sample is deterministic (it
is a function of the layout, the offset and the previous state) and sets
the active section to the first section, in the fixed order of
`sections`, whose range `[top, top+height)` contains `scrollY + 100`,
stopping at the first match; when a first match exists it is the result
regardless of the previous active section. -/
theorem active_section_first_match_C1 :
    ∀ (layout : String → SectionRect) (scrollY : ℚ) (active : String),
      handleScroll (fun s => some (layout s)) scrollY active =
        (specFirstMatch layout scrollY).getD active := by
  intro layout scrollY active
  unfold handleScroll specFirstMatch
  rw [findActive_eq_findSome, findSome_total_eq_find]

/-- C4: when the probe `scrollY + 100` lies outside the range of every
section whose element exists, the scroll sample leaves the active section
unchanged (the loop never calls `setActiveSection`). -/
theorem active_section_sticky_C4 :
    ∀ (getElementById : String → Option SectionRect) (scrollY : ℚ)
      (active : String),
      (∀ s ∈ sections, ∀ el, getElementById s = some el →
          ¬ specInRange el (scrollY + 100)) →
      handleScroll getElementById scrollY active = active := by
  intro getElementById scrollY active h
  unfold handleScroll
  rw [findActive_eq_findSome]
  have hnone : sections.findSome? (scanSection getElementById (scrollY + 100)) =
      none := by
    rw [List.findSome?_eq_none_iff]
    intro s hs
    unfold scanSection
    rcases hel : getElementById s with _ | el
    · rfl
    · exact if_neg fun hc => h s hs el hel hc
  rw [hnone]
  rfl

/-- C4 witness: with the concrete demo layout (sections covering
`[0, 2200)`) and scroll offset 5000, the probe 5100 misses every section
and the active section "projects" is retained. -/
theorem active_section_sticky_C4_witness :
    (∀ s ∈ sections, ∀ el, demoLayout s = some el →
        ¬ specInRange el ((5000 : ℚ) + 100)) ∧
      handleScroll demoLayout 5000 "projects" = "projects" := by
  have h : ∀ s ∈ sections, ∀ el, demoLayout s = some el →
      ¬ specInRange el ((5000 : ℚ) + 100) := by
    intro s hs el hel
    fin_cases hs <;>
      · obtain rfl : _ = el := Option.some.inj hel
        norm_num [specInRange]
  exact ⟨h, active_section_sticky_C4 demoLayout 5000 "projects" h⟩

lemma handleScroll_mem_or_eq (getElementById : String → Option SectionRect)
    (scrollY : ℚ) (active : String) :
    handleScroll getElementById scrollY active = active ∨
      handleScroll getElementById scrollY active ∈ sections := by
  unfold handleScroll
  rcases hfa : findActive getElementById scrollY with _ | s
  · left
    rfl
  · right
    rw [findActive_eq_findSome] at hfa
    obtain ⟨a, ha, hsa⟩ := List.exists_of_findSome?_eq_some hfa
    rwa [scanSection_eq_some hsa] at ha

lemma handleScroll_mem (getElementById : String → Option SectionRect)
    (scrollY : ℚ) (active : String) (h : active ∈ sections) :
    handleScroll getElementById scrollY active ∈ sections := by
  rcases handleScroll_mem_or_eq getElementById scrollY active with heq | hmem
  · rwa [heq]
  · exact hmem

lemma foldl_handleScroll_mem
    (samples : List ((String → Option SectionRect) × ℚ)) :
    ∀ active ∈ sections,
      samples.foldl (fun a sample => handleScroll sample.1 sample.2 a) active ∈
        sections := by
  induction samples with
  | nil => exact fun active h => h
  | cons sample samples ih =>
    intro active h
    exact ih _ (handleScroll_mem sample.1 sample.2 active h)

/-- C8: the active-section state is always one of the four known section
ids: the initial value "home" is one of them, every scroll sample either
leaves the state unchanged or overwrites it wholesale with a known id,
and hence any session (any list of scroll samples from the initial
state) ends in a known id. -/
theorem active_section_invariant_C8 :
    "home" ∈ sections ∧
      (∀ (getElementById : String → Option SectionRect) (scrollY : ℚ)
        (active : String),
        handleScroll getElementById scrollY active = active ∨
          handleScroll getElementById scrollY active ∈ sections) ∧
      ∀ samples, runScrolls samples ∈ sections := by
  refine ⟨by decide, handleScroll_mem_or_eq, fun samples => ?_⟩
  exact foldl_handleScroll_mem samples "home" (by decide)

/-- C5: the featured/other partition is pure (both lists are computed by
`List.filter` from the input, which is left untouched): membership in
each part is exactly membership in the input with the corresponding
value of the `featured` flag, no project is in both parts, and together
the parts are a permutation of the whole input list. -/
theorem project_partition_C5 :
    ∀ (projects : List Project) (p : Project),
      (p ∈ featuredProjects projects ↔ p ∈ projects ∧ p.featured = true) ∧
        (p ∈ otherProjects projects ↔ p ∈ projects ∧ p.featured = false) ∧
        ¬(p ∈ featuredProjects projects ∧ p ∈ otherProjects projects) ∧
        List.Perm (featuredProjects projects ++ otherProjects projects)
          projects := by
  intro projects p
  have hf : p ∈ featuredProjects projects ↔ p ∈ projects ∧ p.featured = true := by
    unfold featuredProjects
    rw [List.mem_filter]
  have ho : p ∈ otherProjects projects ↔ p ∈ projects ∧ p.featured = false := by
    unfold otherProjects
    rw [List.mem_filter]
    simp [Bool.not_eq_true']
  refine ⟨hf, ho, ?_, ?_⟩
  · rintro ⟨hpf, hpo⟩
    have h1 := (hf.mp hpf).2
    have h2 := (ho.mp hpo).2
    rw [h1] at h2
    exact Bool.noConfusion h2
  · exact List.filter_append_perm (fun project => project.featured) projects

/-- C9: the counter animation is single-shot: with the one-shot latched
visibility signal, the animation can only start at a step where the
latch turns true, and once it has started at step `j`, no later step `k`
ever starts (or restarts) it again — the timer and accumulator of the
running sequence are never re-created. -/
theorem counter_single_shot_C9 :
    ∀ (raw : List Bool) (j k : ℕ), j < k → triggersAt raw j = true →
      triggersAt raw k = false := by
  intro raw j k hjk hj
  unfold triggersAt at hj ⊢
  have hlatch : latchedInView (raw.take (j + 1)) = true := by
    rw [Bool.and_eq_true] at hj
    exact hj.1
  have hsub : raw.take (j + 1) ⊆ raw.take k := by
    have h1 : raw.take (j + 1) = (raw.take k).take (j + 1) := by
      rw [List.take_take, min_eq_left (by omega)]
    rw [h1]
    exact List.take_subset _ _
  have hk : latchedInView (raw.take k) = true := by
    unfold latchedInView at hlatch ⊢
    rw [List.any_eq_true] at hlatch ⊢
    obtain ⟨b, hb, hbt⟩ := hlatch
    exact ⟨b, hsub hb, hbt⟩
  rw [hk]
  simp

/-- C9 witness: visibility goes false, true, true, true; the animation
starts at step 1 and step 3 does not restart it. -/
theorem counter_single_shot_C9_witness :
    (1 : ℕ) < 3 ∧ triggersAt [false, true, true, true] 1 = true ∧
      triggersAt [false, true, true, true] 3 = false :=
  ⟨by decide, by decide,
    counter_single_shot_C9 [false, true, true, true] 1 3 (by decide) (by decide)⟩

/-! ### Helper lemmas: progressive counter -/

lemma increment_eq (endVal : ℚ) : increment endVal = endVal / 125 := by
  unfold increment duration intervalMs
  norm_num

lemma tick_not_running {endVal : ℚ} {s : CounterState} (h : s.running = false) :
    tick endVal s = s := by
  unfold tick
  rw [h]
  simp

lemma tick_running {endVal : ℚ} {s : CounterState} (h : s.running = true) :
    tick endVal s =
      if endVal ≤ s.start + increment endVal then
        { start := s.start + increment endVal, count := endVal, running := false }
      else
        { start := s.start + increment endVal,
          count := (⌊s.start + increment endVal⌋ : ℚ), running := true } := by
  unfold tick
  rw [h]
  simp

lemma counterStates_succ (endVal : ℚ) (k : ℕ) :
    counterStates endVal (k + 1) = tick endVal (counterStates endVal k) := rfl

lemma counterStates_stable (endVal : ℚ) (k m : ℕ)
    (h : (counterStates endVal k).running = false) :
    counterStates endVal (k + m) = counterStates endVal k := by
  induction m with
  | zero => rfl
  | succ m ih =>
    have hs : counterStates endVal (k + (m + 1)) =
        tick endVal (counterStates endVal (k + m)) := rfl
    rw [hs, ih, tick_not_running h]

lemma run_char (endVal : ℚ) (k : ℕ)
    (h : ∀ j : ℕ, 1 ≤ j → j ≤ k → (j : ℚ) * increment endVal < endVal) :
    counterStates endVal k =
      { start := (k : ℚ) * increment endVal,
        count := if k = 0 then 0 else (⌊(k : ℚ) * increment endVal⌋ : ℚ),
        running := true } := by
  induction k with
  | zero => simp [counterStates]
  | succ k ih =>
    have ihk := ih fun j h1 h2 => h j h1 (Nat.le_succ_of_le h2)
    rw [counterStates_succ, ihk, tick_running rfl]
    have hcast : ((k + 1 : ℕ) : ℚ) * increment endVal =
        (k : ℚ) * increment endVal + increment endVal := by
      push_cast
      ring
    have hlt := h (k + 1) (by omega) le_rfl
    rw [hcast] at hlt
    rw [if_neg (not_le.mpr hlt), hcast]
    simp

lemma stop_at_first (endVal : ℚ) (k : ℕ) (hk : 1 ≤ k)
    (hprev : ∀ j : ℕ, 1 ≤ j → j < k → (j : ℚ) * increment endVal < endVal)
    (hhit : endVal ≤ (k : ℚ) * increment endVal) :
    counterStates endVal k =
      { start := (k : ℚ) * increment endVal, count := endVal,
        running := false } := by
  obtain ⟨m, rfl⟩ : ∃ m, k = m + 1 := ⟨k - 1, by omega⟩
  have hm := run_char endVal m fun j h1 h2 => hprev j h1 (by omega)
  rw [counterStates_succ, hm, tick_running rfl]
  have hcast : ((m + 1 : ℕ) : ℚ) * increment endVal =
      (m : ℚ) * increment endVal + increment endVal := by
    push_cast
    ring
  rw [hcast] at hhit
  rw [if_pos hhit, hcast]

lemma stopped_char (endVal : ℚ) (k : ℕ) (h : hitBy endVal k) :
    (counterStates endVal k).count = endVal ∧
      (counterStates endVal k).running = false := by
  obtain ⟨j, hj, hje⟩ := h
  rw [Finset.mem_Icc] at hj
  have hex : ∃ n : ℕ, 1 ≤ n ∧ endVal ≤ (n : ℚ) * increment endVal :=
    ⟨j, hj.1, hje⟩
  have hNle : Nat.find hex ≤ k := le_trans (Nat.find_le ⟨hj.1, hje⟩) hj.2
  have hNspec := Nat.find_spec hex
  have hstop := stop_at_first endVal (Nat.find hex) hNspec.1
    (fun i h1 h2 => by
      have hmin := Nat.find_min hex h2
      push_neg at hmin
      exact hmin h1)
    hNspec.2
  obtain ⟨m, rfl⟩ : ∃ m, k = Nat.find hex + m := ⟨k - Nat.find hex, by omega⟩
  rw [counterStates_stable endVal (Nat.find hex) m (by rw [hstop]), hstop]
  exact ⟨rfl, rfl⟩

/-- C2: with target 10 the per-sample increment is exactly 10/125; every
sample up to 124 leaves the timer running (the accumulator has not yet
reached 10), sample 125 reaches the target and displays exactly 10, and
every later sample leaves the terminal state untouched (no further
samples are emitted). -/
theorem counter_termination_C2 :
    increment 10 = 10 / 125 ∧
      (∀ k : ℕ, k ≤ 124 → (counterStates 10 k).running = true) ∧
      counterStates 10 125 = { start := 10, count := 10, running := false } ∧
      ∀ k : ℕ, 125 ≤ k →
        counterStates 10 k = { start := 10, count := 10, running := false } := by
  have hinc : increment 10 = 2 / 25 := by
    rw [increment_eq]
    norm_num
  have hall : ∀ j : ℕ, 1 ≤ j → j ≤ 124 → (j : ℚ) * increment 10 < 10 := by
    intro j h1 h2
    rw [hinc]
    have hj : (j : ℚ) ≤ 124 := by exact_mod_cast h2
    nlinarith
  have h125 : counterStates 10 125 =
      { start := 10, count := 10, running := false } := by
    have h := stop_at_first 10 125 (by norm_num)
      (fun j h1 h2 => hall j h1 (by omega))
      (by rw [hinc]; norm_num)
    have hstart : ((125 : ℕ) : ℚ) * increment 10 = 10 := by
      rw [hinc]
      norm_num
    rw [h, hstart]
  refine ⟨increment_eq 10, ?_, h125, ?_⟩
  · intro k hk
    rw [run_char 10 k fun j h1 h2 => hall j h1 (by omega)]
  · intro k hk
    obtain ⟨m, rfl⟩ : ∃ m, k = 125 + m := ⟨k - 125, by omega⟩
    rw [counterStates_stable 10 125 m (by rw [h125]), h125]

/-- C2 witness: concrete instances of the quantified clauses of the
termination theorem, at samples 7 and 200. -/
theorem counter_termination_C2_witness :
    (7 : ℕ) ≤ 124 ∧ (125 : ℕ) ≤ 200 ∧
      (counterStates 10 7).running = true ∧
      counterStates 10 200 = { start := 10, count := 10, running := false } :=
  ⟨by norm_num, by norm_num, counter_termination_C2.2.1 7 (by norm_num),
    counter_termination_C2.2.2.2 200 (by norm_num)⟩

/-- C6: the counter refines the specified accumulator semantics: after
every sample the displayed value equals the spec-side value (the floored
accumulator `k * increment` while the target is unreached, exactly the
target from the first sample reaching it on), and the timer is still
running exactly when no sample has yet reached the target, so sampling
halts at the first such sample. -/
theorem counter_accumulator_spec_C6 :
    ∀ (endVal : ℚ) (k : ℕ),
      displayed endVal k = specDisplay endVal k ∧
        ((counterStates endVal k).running = true ↔ ¬ hitBy endVal k) := by
  intro endVal k
  by_cases h : hitBy endVal k
  · obtain ⟨hcnt, hrun⟩ := stopped_char endVal k h
    have hk0 : k ≠ 0 := by
      obtain ⟨j, hj, hje⟩ := h
      rw [Finset.mem_Icc] at hj
      omega
    refine ⟨?_, ?_⟩
    · unfold displayed specDisplay
      rw [hcnt, if_neg hk0, if_pos h]
    · rw [hrun]
      simp [h]
  · have hall : ∀ j : ℕ, 1 ≤ j → j ≤ k → (j : ℚ) * increment endVal < endVal := by
      intro j h1 h2
      by_contra hc
      exact h ⟨j, Finset.mem_Icc.mpr ⟨h1, h2⟩, not_lt.mp hc⟩
    have hr := run_char endVal k hall
    refine ⟨?_, ?_⟩
    · unfold displayed specDisplay
      rw [hr, if_neg h]
    · rw [hr]
      simp [h]

/-- Invariant of the counter state for a non-negative target: while the
timer is running, the displayed value is an integer at most the
accumulator, which has not passed the target; once stopped, the displayed
value is exactly the target. -/
def CounterInv (endVal : ℚ) (s : CounterState) : Prop :=
  (s.running = true →
      ∃ d : ℤ, s.count = (d : ℚ) ∧ (d : ℚ) ≤ s.start ∧ s.start ≤ endVal) ∧
    (s.running = false → s.count = endVal)

lemma increment_nonneg {endVal : ℚ} (h : 0 ≤ endVal) : 0 ≤ increment endVal := by
  rw [increment_eq]
  positivity

lemma counterInv_tick {endVal : ℚ} {s : CounterState}
    (h : CounterInv endVal s) : CounterInv endVal (tick endVal s) := by
  cases hr : s.running with
  | false =>
    rw [tick_not_running hr]
    exact h
  | true =>
    obtain ⟨d, hd, hds, hse⟩ := h.1 hr
    rw [tick_running hr]
    split_ifs with hle
    · exact ⟨fun hcon => absurd hcon (by simp), fun _ => rfl⟩
    · refine ⟨fun _ => ⟨⌊s.start + increment endVal⌋, rfl, Int.floor_le _, ?_⟩,
        fun hcon => absurd hcon (by simp)⟩
      exact le_of_lt (not_le.mp hle)

lemma counterInv_holds (endVal : ℚ) (he : 0 ≤ endVal) (k : ℕ) :
    CounterInv endVal (counterStates endVal k) := by
  induction k with
  | zero =>
    constructor
    · intro _
      exact ⟨0, by norm_num [counterStates], by norm_num [counterStates],
        by simpa [counterStates] using he⟩
    · intro hcon
      exact absurd hcon (by simp [counterStates])
  | succ k ih => exact counterInv_tick ih

lemma count_le_tick {endVal : ℚ} (he : 0 ≤ endVal) {s : CounterState}
    (h : CounterInv endVal s) : s.count ≤ (tick endVal s).count := by
  cases hr : s.running with
  | false =>
    rw [tick_not_running hr]
  | true =>
    obtain ⟨d, hd, hds, hse⟩ := h.1 hr
    rw [tick_running hr, hd]
    split_ifs with hle
    · show (d : ℚ) ≤ endVal
      exact le_trans hds hse
    · show (d : ℚ) ≤ (⌊s.start + increment endVal⌋ : ℚ)
      have hd2 : (d : ℚ) ≤ s.start + increment endVal :=
        le_trans hds (by linarith [increment_nonneg he])
      exact_mod_cast Int.le_floor.mpr hd2

lemma count_le_target {endVal : ℚ} {s : CounterState}
    (h : CounterInv endVal s) : s.count ≤ endVal := by
  cases hr : s.running with
  | false => exact le_of_eq (h.2 hr)
  | true =>
    obtain ⟨d, hd, hds, hse⟩ := h.1 hr
    rw [hd]
    exact le_trans hds hse

/-- C3: for every non-negative target, the displayed counter sequence is
non-decreasing from one sample to the next and never exceeds the
target. -/
theorem counter_monotone_C3 :
    ∀ endVal : ℚ, 0 ≤ endVal → ∀ k : ℕ,
      displayed endVal k ≤ displayed endVal (k + 1) ∧
        displayed endVal k ≤ endVal := by
  intro endVal he k
  have hinv := counterInv_holds endVal he k
  refine ⟨?_, count_le_target hinv⟩
  unfold displayed
  rw [counterStates_succ]
  exact count_le_tick he hinv

/-- C3 witness: the non-negativity hypothesis holds at target 10 and the
conclusion is instantiated at sample 2. -/
theorem counter_monotone_C3_witness :
    (0 : ℚ) ≤ 10 ∧ displayed 10 2 ≤ displayed 10 3 ∧ displayed 10 2 ≤ 10 :=
  ⟨by norm_num, (counter_monotone_C3 10 (by norm_num) 2).1,
    (counter_monotone_C3 10 (by norm_num) 2).2⟩

/-- C7: with target 0 the divisor `duration / interval` is the fixed
positive constant 125 (so the increment divides by a nonzero constant),
the displayed value starts at 0, and the very first sample already
satisfies the clamp: it displays 0, stops the timer, and every later
sample leaves that terminal state unchanged. -/
theorem counter_zero_target_C7 :
    duration / intervalMs = 125 ∧ (0 : ℚ) < duration / intervalMs ∧
      (counterStates 0 0).running = true ∧ displayed 0 0 = 0 ∧
      counterStates 0 1 = { start := 0, count := 0, running := false } ∧
      ∀ k : ℕ, 1 ≤ k →
        counterStates 0 k = { start := 0, count := 0, running := false } := by
  have hzero : increment 0 = 0 := by
    rw [increment_eq]
    norm_num
  have h1 : counterStates 0 1 = { start := 0, count := 0, running := false } := by
    rw [counterStates_succ, tick_running rfl]
    have hc : (0 : ℚ) ≤ (counterStates 0 0).start + increment 0 := by
      rw [hzero]
      norm_num [counterStates]
    rw [if_pos hc]
    have hst : (counterStates 0 0).start + increment 0 = 0 := by
      rw [hzero]
      norm_num [counterStates]
    rw [hst]
  refine ⟨by norm_num [duration, intervalMs], by norm_num [duration, intervalMs],
    rfl, rfl, h1, ?_⟩
  intro k hk
  obtain ⟨m, rfl⟩ : ∃ m, k = 1 + m := ⟨k - 1, by omega⟩
  rw [counterStates_stable 0 1 m (by rw [h1]), h1]

/-- C7 witness: the tail clause instantiated at sample 5. -/
theorem counter_zero_target_C7_witness :
    (1 : ℕ) ≤ 5 ∧
      counterStates 0 5 = { start := 0, count := 0, running := false } :=
  ⟨by norm_num, counter_zero_target_C7.2.2.2.2.2 5 (by norm_num)⟩

/-- C10: for every strictly negative target the accumulator after one
sample, `target/125`, is already at least the target, so the first sample
satisfies the clamp: the displayed value jumps from the initial 0
directly to the target after exactly one sample, the timer stops, and no
decreasing ramp from 0 down to the target is ever produced. -/
theorem counter_negative_target_C10 :
    ∀ endVal : ℚ, endVal < 0 →
      endVal ≤ increment endVal ∧ displayed endVal 0 = 0 ∧
        counterStates endVal 1 =
          { start := increment endVal, count := endVal, running := false } ∧
        ∀ k : ℕ, 1 ≤ k →
          counterStates endVal k =
            { start := increment endVal, count := endVal, running := false } := by
  intro endVal he
  have hle : endVal ≤ increment endVal := by
    rw [increment_eq, le_div_iff₀ (by norm_num : (0 : ℚ) < 125)]
    linarith
  have h1 : counterStates endVal 1 =
      { start := increment endVal, count := endVal, running := false } := by
    rw [counterStates_succ, tick_running rfl]
    have hst : (counterStates endVal 0).start + increment endVal =
        increment endVal := by
      have h0 : (counterStates endVal 0).start = 0 := rfl
      rw [h0, zero_add]
    rw [hst, if_pos hle]
  refine ⟨hle, rfl, h1, ?_⟩
  intro k hk
  obtain ⟨m, rfl⟩ : ∃ m, k = 1 + m := ⟨k - 1, by omega⟩
  rw [counterStates_stable endVal 1 m (by rw [h1]), h1]

/-- C10 witness: target -5 is negative; its sequence is already terminal
at sample 3 with displayed value exactly -5. -/
theorem counter_negative_target_C10_witness :
    (-5 : ℚ) < 0 ∧
      counterStates (-5) 3 =
        { start := increment (-5), count := -5, running := false } :=
  ⟨by norm_num,
    (counter_negative_target_C10 (-5) (by norm_num)).2.2.2 3 (by norm_num)⟩
